import Mathlib

/-
Verification of the noesis-engine tokenization core.

The repository exposes its engine through C boundary headers
(harmony_ffi.h, tiktoken_ffi.h); the core components (VocabularyTable,
SpecialTokenRegistry, TextSegmenter, BpeCore, HarmonyEncoding,
StreamableParser) are embedded here as executable Lean definitions and
the specified properties are proved about them.  Text and byte buffers
are modelled as lists of natural numbers (byte values); token ids are
natural numbers.
-/

namespace Noesis

/-- Modelled from the spec: TextSegmenter byte class for whitespace. -/
def isSpace (b : Nat) : Bool := b == 32 || b == 9 || b == 10 || b == 13

/-- Modelled from the spec: TextSegmenter byte class for letters (ASCII). -/
def isLetter (b : Nat) : Bool :=
  (Nat.ble 65 b && Nat.ble b 90) || (Nat.ble 97 b && Nat.ble b 122)

/-- Modelled from the spec: TextSegmenter byte class for digits. -/
def isDigit (b : Nat) : Bool := Nat.ble 48 b && Nat.ble b 57

/-- Modelled from the spec: TextSegmenter byte class for punctuation runs
(bytes that are neither whitespace, letters nor digits). -/
def isOther (b : Nat) : Bool := !(isSpace b) && !(isLetter b) && !(isDigit b)

/-- Modelled from the spec: length of the leading single-class run used by
the TextSegmenter (contiguous letters, contiguous digits bounded in length,
or a punctuation run), the rules of section 4.2. -/
def classRunLen (bs : List Nat) : Nat :=
  match bs with
  | [] => 0
  | b :: rest =>
    if isLetter b then (List.takeWhile isLetter (b :: rest)).length
    else if isDigit b then min 3 (List.takeWhile isDigit (b :: rest)).length
    else if isSpace b then 0
    else (List.takeWhile isOther (b :: rest)).length

/-- Modelled from the spec: the length of the first pre-token chunk the
TextSegmenter cuts off the front of a byte buffer: one unit of whitespace
plus the following non-space run, a whitespace run (keeping the last space
for the following chunk when more input follows), or a single-class run. -/
def segNext (bs : List Nat) : Nat :=
  match bs with
  | [] => 0
  | b :: rest =>
    if isSpace b then
      if List.dropWhile isSpace (b :: rest) = [] then
        (List.takeWhile isSpace (b :: rest)).length
      else if (List.takeWhile isSpace (b :: rest)).length = 1 then
        1 + classRunLen (List.dropWhile isSpace (b :: rest))
      else
        (List.takeWhile isSpace (b :: rest)).length - 1
    else classRunLen (b :: rest)

/-- Fuel-driven worker for the TextSegmenter; fuel bounds the number of
chunks, each chunk consumes at least one byte. -/
def segmentF : Nat → List Nat → List (List Nat)
  | 0, _ => []
  | _ + 1, [] => []
  | fuel + 1, b :: rest =>
    List.take (segNext (b :: rest)) (b :: rest) ::
      segmentF fuel (List.drop (segNext (b :: rest)) (b :: rest))

/-- Modelled from the spec: TextSegmenter `segment(text)`, splitting raw
text into pre-token chunks via the pattern rules before BPE is applied;
a pure, restartable function of its input. -/
def segment (bs : List Nat) : List (List Nat) := segmentF bs.length bs

/-- Concatenation of a list of byte chunks. -/
def catList : List (List Nat) → List Nat
  | [] => []
  | c :: cs => c ++ catList cs

/-- Split a chunk list into (all chunks but the last, the last chunk);
the last chunk of a buffer is the part whose tokenization could still be
altered by future bytes (the unsafe remainder of section 4.5). -/
def chunksSplit : List (List Nat) → List (List Nat) × List Nat
  | [] => ([], [])
  | [c] => ([], c)
  | c :: c2 :: cs => ((c :: (chunksSplit (c2 :: cs)).1), (chunksSplit (c2 :: cs)).2)

/-- Modelled from the spec: the VocabularyTable, an immutable mapping built
from an ordered list of byte-sequence entries (index = ordinary token id)
plus pairwise merge ranks (index in the merge list = rank, lower = higher
priority), the data of sections 3 and 4.1. -/
structure Vocab where
  entries : List (List Nat)
  merges : List ((Nat × Nat) × Nat)
deriving DecidableEq

/-- First index of a byte sequence in the entry list (exact byte match). -/
def idxOfA : List (List Nat) → List Nat → Option Nat
  | [], _ => none
  | e :: es, bs =>
    if e = bs then some 0 else (idxOfA es bs).map (fun i => i + 1)

/-- Entry at a given index of the entry list. -/
def nth : List (List Nat) → Nat → Option (List Nat)
  | [], _ => none
  | e :: _, 0 => some e
  | _ :: es, n + 1 => nth es n

/-- Modelled from the spec: VocabularyTable `lookup_id(bytes)`. -/
def lookup_id (v : Vocab) (bs : List Nat) : Option Nat := idxOfA v.entries bs

/-- Modelled from the spec: VocabularyTable `lookup_bytes(token)`;
`none` corresponds to signalling UnknownToken on an out-of-range id. -/
def lookup_bytes (v : Vocab) (t : Nat) : Option (List Nat) := nth v.entries t

/-- Search the merge list for an adjacent pair, returning (rank, merged id);
the rank is the position in the externally supplied ordered merge list. -/
def mergeLookup : List ((Nat × Nat) × Nat) → Nat → Nat → Option (Nat × Nat)
  | [], _, _ => none
  | m :: ms, x, y =>
    if m.1.1 = x ∧ m.1.2 = y then some (0, m.2)
    else (mergeLookup ms x y).map (fun p => (p.1 + 1, p.2))

/-- Modelled from the spec: VocabularyTable `rank(tokenA, tokenB)`,
`none` meaning "no merge". -/
def rank (v : Vocab) (x y : Nat) : Option Nat :=
  (mergeLookup v.merges x y).map Prod.fst

/-- The merged token for an adjacent pair, when the pair has a rank. -/
def mergedTok (v : Vocab) (x y : Nat) : Option Nat :=
  (mergeLookup v.merges x y).map Prod.snd

/-- Ranks of all adjacent pairs of a token sequence, in order. -/
def pairRanks (v : Vocab) : List Nat → List (Option Nat)
  | a :: b :: rest => rank v a b :: pairRanks v (b :: rest)
  | _ => []

/-- Position and rank of the eligible adjacent pair with the lowest rank;
the leftmost occurrence wins ties on rank.  The first argument is the
index of the head of the remaining rank list. -/
def bestAux : Nat → List (Option Nat) → Option (Nat × Nat)
  | _, [] => none
  | i, none :: rest => bestAux (i + 1) rest
  | i, some r :: rest =>
    match bestAux (i + 1) rest with
    | none => some (i, r)
    | some (j, r2) => if r2 < r then some (j, r2) else some (i, r)

/-- Fuse the adjacent pair at a given position, replacing the two tokens
with their merged token (no change if the pair has no merge). -/
def fuseAt (v : Vocab) : Nat → List Nat → List Nat
  | 0, a :: b :: rest =>
    (match mergedTok v a b with
     | some m => m :: rest
     | none => a :: b :: rest)
  | i + 1, a :: rest => a :: fuseAt v i rest
  | _, l => l

/-- Modelled from the spec: one step of the greedy, globally-rank-ordered
BPE reduction of section 4.3: fuse the single adjacent pair with the lowest
defined merge rank (leftmost wins ties); `none` when no adjacent pair has a
defined rank. -/
def bpeStep (v : Vocab) (toks : List Nat) : Option (List Nat) :=
  match bestAux 0 (pairRanks v toks) with
  | some p => some (fuseAt v p.1 toks)
  | none => none

/-- Iterate `bpeStep` until no adjacent pair has a defined rank; each
successful step shortens the sequence, so the initial length is enough fuel. -/
def bpeRunFuel (v : Vocab) : Nat → List Nat → List Nat
  | 0, toks => toks
  | fuel + 1, toks =>
    match bpeStep v toks with
    | some toks2 => bpeRunFuel v fuel toks2
    | none => toks

/-- Modelled from the spec: the full greedy BPE reduction on a token
sequence. -/
def bpeRun (v : Vocab) (toks : List Nat) : List Nat :=
  bpeRunFuel v toks.length toks

/-- Modelled from the spec: initialize a chunk as a sequence of single-byte
tokens; fails (InvalidInput) when a byte has no single-byte vocabulary entry. -/
def initToks (v : Vocab) : List Nat → Option (List Nat)
  | [] => some []
  | b :: rest =>
    match lookup_id v [b], initToks v rest with
    | some t, some ts => some (t :: ts)
    | _, _ => none

/-- Modelled from the spec: BpeCore `encode(bytes chunk)` of section 4.3:
single-byte initialization followed by the greedy merge reduction. -/
def bpeEncode (v : Vocab) (chunk : List Nat) : Option (List Nat) :=
  match initToks v chunk with
  | some ts => some (bpeRun v ts)
  | none => none

/-- BPE-encode a list of pre-token chunks and concatenate the results in
order. -/
def encodeChunks (v : Vocab) : List (List Nat) → Option (List Nat)
  | [] => some []
  | c :: cs =>
    match bpeEncode v c, encodeChunks v cs with
    | some t, some ts => some (t ++ ts)
    | _, _ => none

/-- Modelled from the spec: HarmonyEncoding `encode_plain(text)` of
section 4.4: TextSegmenter then BpeCore.encode per chunk, concatenated in
order; no special tokens inserted.  Declared in the boundary header as
harmony_encoding_encode_plain. -/
def encode_plain (v : Vocab) (text : List Nat) : Option (List Nat) :=
  encodeChunks v (segment text)

/-- Modelled from the spec: BpeCore `decode(token sequence)` restricted to
the vocabulary table: concatenate each token's byte sequence in order;
`none` corresponds to failing with UnknownToken. -/
def decodeToks (v : Vocab) : List Nat → Option (List Nat)
  | [] => some []
  | t :: rest =>
    match lookup_bytes v t, decodeToks v rest with
    | some bs, some rest2 => some (bs ++ rest2)
    | _, _ => none

/-- Modelled from the spec: the category of a SpecialToken (role-delimiter
or stop marker), section 3. -/
inductive SpecCat
| roleDelim
| stopMark
deriving DecidableEq

/-- Modelled from the spec: a SpecialToken of the SpecialTokenRegistry:
a name (display form, as bytes), a reserved id, and a category. -/
structure SpecialToken where
  name : List Nat
  id : Nat
  cat : SpecCat
deriving DecidableEq

/-- Modelled from the spec: the EncodingHandle bundle of section 3:
VocabularyTable, SpecialTokenRegistry and the three role delimiters used
by prompt rendering, immutable after construction. -/
structure Encoding where
  vocab : Vocab
  specials : List SpecialToken
  sysDelim : Nat
  userDelim : Nat
  asstDelim : Nat
deriving DecidableEq

/-- Find the registered special token with a given reserved id. -/
def lookupSpecial : List SpecialToken → Nat → Option SpecialToken
  | [], _ => none
  | s :: ss, t => if s.id = t then some s else lookupSpecial ss t

/-- The byte form of a structurally valid token id: its vocabulary byte
sequence for an ordinary id, its registered display form for a special id,
`none` for an id that is neither. -/
def tokenBytes (e : Encoding) (t : Nat) : Option (List Nat) :=
  match lookup_bytes e.vocab t with
  | some bs => some bs
  | none => (lookupSpecial e.specials t).map (fun s => s.name)

/-- Modelled from the spec: the error kinds of section 7 that are visible
at this level: InvalidInput (malformed byte stream offered to encode or the
streaming parser) and UnknownToken (a token id with no vocabulary entry
passed to decode or lookup). -/
inductive Err
| invalidInput
| unknownToken
deriving DecidableEq

/-- Modelled from the spec: strict decode over vocabulary and registry:
concatenates each token's byte form and fails with UnknownToken on a token
id with no vocabulary entry and no registered special id (sections 4.3 and
7); declared in the boundary header as tiktoken_decode. -/
def strictDecode (e : Encoding) : List Nat → Except Err (List Nat)
  | [] => Except.ok []
  | t :: rest =>
    match tokenBytes e t, strictDecode e rest with
    | some bs, Except.ok rest2 => Except.ok (bs ++ rest2)
    | some _, Except.error er => Except.error er
    | none, _ => Except.error Err.unknownToken

/-- Unicode replacement character U+FFFD as UTF-8 bytes, the repair marker
substituted at invalid spans by the total decode. -/
def replacementBytes : List Nat := [239, 191, 189]

/-- Modelled from the spec: HarmonyEncoding `decode(token sequence)` of
section 4.4, declared as harmony_encoding_decode: total, never fails;
special tokens decode to their registered display form and invalid content
is repaired with the replacement marker rather than surfaced as an error. -/
def harmonyDecode (e : Encoding) : List Nat → List Nat
  | [] => []
  | t :: rest =>
    (match tokenBytes e t with
     | some bs => bs
     | none => replacementBytes) ++ harmonyDecode e rest

/-- Whether a registered special token is tagged as a stop marker. -/
def isStopTok (s : SpecialToken) : Bool :=
  match s.cat with
  | SpecCat.stopMark => true
  | _ => false

/-- Modelled from the spec: HarmonyEncoding `stop_tokens()` of section 4.4,
declared as harmony_encoding_stop_tokens: every SpecialToken tagged as
"stop". -/
def stop_tokens (e : Encoding) : List Nat :=
  (e.specials.filter isStopTok).map (fun s => s.id)

/-- Modelled from the spec: HarmonyEncoding `render_prompt` of section 4.4,
declared as harmony_encoding_render_prompt: a role-delimiter special token,
the encoding of the system segment, a role-delimiter, the encoding of the
user segment, a role-delimiter, and the encoding of the assistant segment,
with no terminating delimiter after the assistant segment. -/
def render_prompt (e : Encoding) (sysSeg userSeg asstSeg : List Nat) :
    Option (List Nat) :=
  match encode_plain e.vocab sysSeg, encode_plain e.vocab userSeg,
      encode_plain e.vocab asstSeg with
  | some es, some eu, some ea =>
    some ([e.sysDelim] ++ es ++ [e.userDelim] ++ eu ++ [e.asstDelim] ++ ea)
  | _, _, _ => none

/-- Modelled from the spec: StreamableParser per-stream state of section 3:
the pending-byte buffer of bytes not yet safely tokenizable (the
accumulating flag is pending being nonempty). -/
structure ParserState where
  pending : List Nat
deriving DecidableEq

/-- Modelled from the spec: StreamableParser `feed(byte chunk)` of section
4.5, declared as harmony_streamable_parser_feed: append the chunk to the
internal buffer, segment the buffer, encode every chunk but the last (the
safe part, whose tokenization no future byte can alter), return the
resulting tokens and keep the unsafe remainder buffered; on failure the
parser state is left unchanged. -/
def feed (e : Encoding) (st : ParserState) (chunk : List Nat) :
    Except Err (List Nat) × ParserState :=
  match encodeChunks e.vocab (chunksSplit (segment (st.pending ++ chunk))).1 with
  | some ts =>
    (Except.ok ts, ParserState.mk (chunksSplit (segment (st.pending ++ chunk))).2)
  | none => (Except.error Err.invalidInput, st)

/-- Modelled from the spec: StreamableParser `flush()` of section 4.5,
declared as harmony_streamable_parser_flush: encode the entire buffer as if
it were the true end of the stream and transition to Idle. -/
def flush (e : Encoding) (st : ParserState) :
    Except Err (List Nat) × ParserState :=
  match encode_plain e.vocab st.pending with
  | some ts => (Except.ok ts, ParserState.mk [])
  | none => (Except.error Err.invalidInput, st)

/-- Modelled from the spec: StreamableParser `has_pending()`, declared as
harmony_streamable_parser_has_pending: true iff the state is Accumulating. -/
def hasPending (st : ParserState) : Bool := !st.pending.isEmpty

/-- Modelled from the spec: StreamableParser `reset()`, declared as
harmony_streamable_parser_reset: discard all buffered bytes and return to
Idle, independent of prior state. -/
def reset (_st : ParserState) : ParserState := ParserState.mk []

/-- The initial state of a freshly constructed StreamableParser: Idle. -/
def initState : ParserState := ParserState.mk []

/-- Drive a parser from a given state: feed the chunks in order, then
flush; collect the concatenation of all returned token sequences. -/
def runStreamFrom (e : Encoding) (st : ParserState) :
    List (List Nat) → Except Err (List Nat)
  | [] =>
    (match flush e st with
     | (Except.ok ts, _) => Except.ok ts
     | (Except.error er, _) => Except.error er)
  | c :: cs =>
    (match feed e st c with
     | (Except.ok ts, st2) =>
       (match runStreamFrom e st2 cs with
        | Except.ok ts2 => Except.ok (ts ++ ts2)
        | Except.error er => Except.error er)
     | (Except.error er, _) => Except.error er)

/-- Drive a freshly constructed parser over a chunk partition. -/
def runStream (e : Encoding) (chunks : List (List Nat)) :
    Except Err (List Nat) :=
  runStreamFrom e initState chunks

/-- Modelled from the header: harmony_encoding_encode_plain receives its
text as a NUL-terminated char pointer with no length parameter, so the
engine only ever sees the bytes before the first NUL. -/
def cstringBytes (bs : List Nat) : List Nat :=
  bs.takeWhile (fun b => !(b == 0))

/-- Modelled from the header: encode_plain as observed across the C
boundary, applied to the NUL-truncated byte view of the input. -/
def encode_plain_c (e : Encoding) (bs : List Nat) : Option (List Nat) :=
  encode_plain e.vocab (cstringBytes bs)

/-- Closure property of section 3: the byte form of every merged token is
the concatenation of the byte forms of its two parts. -/
def MergeClosed (v : Vocab) : Prop :=
  ∀ m ∈ v.merges,
    lookup_bytes v m.2 =
      (match lookup_bytes v m.1.1, lookup_bytes v m.1.2 with
       | some ba, some bb => some (ba ++ bb)
       | _, _ => none)

/-- Well-formedness of section 3: every merged token id is itself an
ordinary vocabulary id. -/
def MergesBounded (v : Vocab) : Prop :=
  ∀ m ∈ v.merges, m.2 < v.entries.length

/-- Invariant of section 3: reserved special ids never overlap ordinary
token ids. -/
def SpecialsDisjoint (e : Encoding) : Prop :=
  ∀ s ∈ e.specials, e.vocab.entries.length ≤ s.id

instance (v : Vocab) : Decidable (MergeClosed v) := by
  unfold MergeClosed; infer_instance

instance (v : Vocab) : Decidable (MergesBounded v) := by
  unfold MergesBounded; infer_instance

instance (e : Encoding) : Decidable (SpecialsDisjoint e) := by
  unfold SpecialsDisjoint; infer_instance

/-- The toy vocabulary of spec section 8: ids 0-3 are the single bytes
h, e, l, o; ids 4-9 are filler single-byte entries; merge (h,e) gives id 10
at rank 0, (l,l) gives 11 at rank 1, (10,l) gives 12 at rank 2. -/
def toyVocab : Vocab :=
  Vocab.mk
    [[104], [101], [108], [111], [65], [66], [67], [68], [69], [70],
     [104, 101], [108, 108], [104, 101, 108]]
    [((0, 1), 10), ((2, 2), 11), ((10, 2), 12)]

/-- A concrete EncodingHandle over the toy vocabulary with three
role-delimiter special tokens and one stop token. -/
def toyEncoding : Encoding :=
  Encoding.mk toyVocab
    [SpecialToken.mk [60, 115, 62] 100 SpecCat.roleDelim,
     SpecialToken.mk [60, 117, 62] 101 SpecCat.roleDelim,
     SpecialToken.mk [60, 97, 62] 102 SpecCat.roleDelim,
     SpecialToken.mk [60, 101, 110, 100, 62] 103 SpecCat.stopMark]
    100 101 102

theorem tw_cons_pos {p : Nat → Bool} {a : Nat} {l : List Nat} (h : p a = true) :
    List.takeWhile p (a :: l) = a :: List.takeWhile p l := by
  simp [List.takeWhile_cons, h]

theorem tw_cons_neg {p : Nat → Bool} {a : Nat} {l : List Nat} (h : p a = false) :
    List.takeWhile p (a :: l) = [] := by
  simp [List.takeWhile_cons, h]

theorem dw_cons_pos {p : Nat → Bool} {a : Nat} {l : List Nat} (h : p a = true) :
    List.dropWhile p (a :: l) = List.dropWhile p l := by
  simp [List.dropWhile_cons, h]

theorem dw_cons_neg {p : Nat → Bool} {a : Nat} {l : List Nat} (h : p a = false) :
    List.dropWhile p (a :: l) = a :: l := by
  simp [List.dropWhile_cons, h]

theorem tw_length_le (p : Nat → Bool) :
    ∀ l : List Nat, (List.takeWhile p l).length ≤ l.length := by
  intro l
  induction l with
  | nil => simp
  | cons a l ih =>
    cases h : p a with
    | true => rw [tw_cons_pos h]; simpa using ih
    | false => rw [tw_cons_neg h]; simp

theorem tw_dw_length (p : Nat → Bool) (l : List Nat) :
    (List.takeWhile p l).length + (List.dropWhile p l).length = l.length := by
  have h := List.takeWhile_append_dropWhile (p := p) (l := l)
  have h2 := congrArg List.length h
  rw [List.length_append] at h2
  exact h2

theorem tw_stable (p : Nat → Bool) :
    ∀ (A B : List Nat), (List.takeWhile p A).length < A.length →
      List.takeWhile p (A ++ B) = List.takeWhile p A := by
  intro A
  induction A with
  | nil => intro B h; simp at h
  | cons a l ih =>
    intro B h
    cases hpa : p a with
    | true =>
      rw [tw_cons_pos hpa] at h ⊢
      rw [List.cons_append, tw_cons_pos hpa, ih B (by simpa using h)]
    | false =>
      rw [tw_cons_neg hpa, List.cons_append, tw_cons_neg hpa]

theorem tw_full_append (p : Nat → Bool) :
    ∀ (A B : List Nat), (List.takeWhile p A).length = A.length →
      List.takeWhile p (A ++ B) = A ++ List.takeWhile p B := by
  intro A
  induction A with
  | nil => intro B _; simp
  | cons a l ih =>
    intro B h
    cases hpa : p a with
    | true =>
      rw [tw_cons_pos hpa] at h
      rw [List.cons_append, tw_cons_pos hpa, ih B (by simpa using h), List.cons_append]
    | false =>
      rw [tw_cons_neg hpa] at h
      simp at h

theorem dw_stable (p : Nat → Bool) :
    ∀ (A B : List Nat), (List.takeWhile p A).length < A.length →
      List.dropWhile p (A ++ B) = List.dropWhile p A ++ B := by
  intro A
  induction A with
  | nil => intro B h; simp at h
  | cons a l ih =>
    intro B h
    cases hpa : p a with
    | true =>
      rw [tw_cons_pos hpa] at h
      rw [List.cons_append, dw_cons_pos hpa, dw_cons_pos hpa, ih B (by simpa using h)]
    | false =>
      rw [List.cons_append, dw_cons_neg hpa, dw_cons_neg hpa, List.cons_append]

theorem take_append_le :
    ∀ (k : Nat) (C F : List Nat), k ≤ C.length →
      List.take k (C ++ F) = List.take k C := by
  intro k
  induction k with
  | zero => intro C F _; simp
  | succ k ih =>
    intro C F h
    cases C with
    | nil => simp at h
    | cons c cs =>
      rw [List.cons_append, List.take_succ_cons, List.take_succ_cons,
        ih cs F (by simpa using h)]

theorem drop_append_le :
    ∀ (k : Nat) (C F : List Nat), k ≤ C.length →
      List.drop k (C ++ F) = List.drop k C ++ F := by
  intro k
  induction k with
  | zero => intro C F _; simp
  | succ k ih =>
    intro C F h
    cases C with
    | nil => simp at h
    | cons c cs =>
      rw [List.cons_append, List.drop_succ_cons, List.drop_succ_cons,
        ih cs F (by simpa using h)]

theorem classRun_stable (A B : List Nat) (h : classRunLen A < A.length) :
    classRunLen (A ++ B) = classRunLen A := by
  cases A with
  | nil => simp [classRunLen] at h
  | cons b rest =>
    rw [List.cons_append]
    cases hl : isLetter b with
    | true =>
      simp only [classRunLen] at h ⊢
      rw [if_pos hl] at h ⊢
      rw [if_pos hl]
      rw [← List.cons_append, tw_stable isLetter (b :: rest) B h]
    | false =>
      cases hd : isDigit b with
      | true =>
        simp only [classRunLen] at h ⊢
        rw [if_neg (by simp [hl]), if_pos hd] at h
        rw [if_neg (by simp [hl]), if_pos hd, if_neg (by simp [hl]), if_pos hd]
        rcases Nat.lt_or_ge (List.takeWhile isDigit (b :: rest)).length
            (b :: rest).length with htw | htw
        · rw [← List.cons_append, tw_stable isDigit (b :: rest) B htw]
        · have hle := tw_length_le isDigit (b :: rest)
          have heq : (List.takeWhile isDigit (b :: rest)).length = (b :: rest).length := by
            omega
          have hfull := tw_full_append isDigit (b :: rest) B heq
          rw [← List.cons_append, hfull, List.length_append]
          omega
      | false =>
        cases hs : isSpace b with
        | true =>
          simp only [classRunLen]
          rw [if_neg (by simp [hl]), if_neg (by simp [hd]), if_pos hs,
            if_neg (by simp [hl]), if_neg (by simp [hd]), if_pos hs]
        | false =>
          have ho : isOther b = true := by simp [isOther, hl, hd, hs]
          simp only [classRunLen] at h ⊢
          rw [if_neg (by simp [hl]), if_neg (by simp [hd]), if_neg (by simp [hs])] at h
          rw [if_neg (by simp [hl]), if_neg (by simp [hd]), if_neg (by simp [hs]),
            if_neg (by simp [hl]), if_neg (by simp [hd]), if_neg (by simp [hs])]
          rw [← List.cons_append, tw_stable isOther (b :: rest) B h]

theorem bool_eq_false {x : Bool} (h : ¬ x = true) : x = false := by
  cases x
  · rfl
  · exact absurd rfl h

theorem segNext_pos (b : Nat) (rest : List Nat) : 0 < segNext (b :: rest) := by
  by_cases hs : isSpace b = true
  · simp only [segNext]
    rw [if_pos hs]
    have htw : 0 < (List.takeWhile isSpace (b :: rest)).length := by
      rw [tw_cons_pos hs]; simp
    by_cases hdw : List.dropWhile isSpace (b :: rest) = []
    · rw [if_pos hdw]; exact htw
    · rw [if_neg hdw]
      by_cases h1 : (List.takeWhile isSpace (b :: rest)).length = 1
      · rw [if_pos h1]; omega
      · rw [if_neg h1]; omega
  · simp only [segNext]
    rw [if_neg hs]
    simp only [classRunLen]
    by_cases hl : isLetter b = true
    · rw [if_pos hl, tw_cons_pos hl]; simp
    · rw [if_neg hl]
      by_cases hd : isDigit b = true
      · rw [if_pos hd]
        have : 0 < (List.takeWhile isDigit (b :: rest)).length := by
          rw [tw_cons_pos hd]; simp
        omega
      · rw [if_neg hd, if_neg hs]
        have ho : isOther b = true := by
          simp [isOther, bool_eq_false hl, bool_eq_false hd, bool_eq_false hs]
        rw [tw_cons_pos ho]
        simp

theorem seg_stable (b : Nat) (rest B : List Nat)
    (h : segNext (b :: rest) < (b :: rest).length) :
    segNext ((b :: rest) ++ B) = segNext (b :: rest) := by
  rw [List.cons_append]
  by_cases hs : isSpace b = true
  · have hlen := tw_dw_length isSpace (b :: rest)
    by_cases hdw : List.dropWhile isSpace (b :: rest) = []
    · exfalso
      simp only [segNext] at h
      rw [if_pos hs, if_pos hdw] at h
      rw [hdw] at hlen
      simp only [List.length_nil] at hlen
      omega
    · have htwlt : (List.takeWhile isSpace (b :: rest)).length < (b :: rest).length := by
        have : 0 < (List.dropWhile isSpace (b :: rest)).length := by
          cases hx : List.dropWhile isSpace (b :: rest) with
          | nil => exact absurd hx hdw
          | cons d ds => simp
        omega
      have htws := tw_stable isSpace (b :: rest) B htwlt
      have hdws := dw_stable isSpace (b :: rest) B htwlt
      rw [List.cons_append] at htws hdws
      have hdw2 : ¬ List.dropWhile isSpace (b :: (rest ++ B)) = [] := by
        rw [hdws]
        cases hx : List.dropWhile isSpace (b :: rest) with
        | nil => exact absurd hx hdw
        | cons d ds => simp
      simp only [segNext] at h ⊢
      rw [if_pos hs, if_neg hdw] at h
      rw [if_pos hs, if_pos hs, if_neg hdw2, if_neg hdw, htws, hdws]
      by_cases h1 : (List.takeWhile isSpace (b :: rest)).length = 1
      · rw [if_pos h1] at h
        rw [if_pos h1, if_pos h1]
        have hcr : classRunLen (List.dropWhile isSpace (b :: rest)) <
            (List.dropWhile isSpace (b :: rest)).length := by
          omega
        rw [classRun_stable (List.dropWhile isSpace (b :: rest)) B hcr]
      · rw [if_neg h1, if_neg h1]
  · simp only [segNext] at h ⊢
    rw [if_neg hs] at h
    rw [if_neg hs, if_neg hs]
    have := classRun_stable (b :: rest) B h
    rw [List.cons_append] at this
    exact this

theorem segmentF_nil : ∀ fuel, segmentF fuel [] = [] := by
  intro fuel
  cases fuel <;> rfl

theorem segmentF_fuel : ∀ (fuel fuel2 : Nat) (bs : List Nat),
    bs.length ≤ fuel → bs.length ≤ fuel2 → segmentF fuel bs = segmentF fuel2 bs := by
  intro fuel
  induction fuel with
  | zero =>
    intro fuel2 bs h _
    cases bs with
    | nil => rw [segmentF_nil, segmentF_nil]
    | cons b rest => simp at h
  | succ fuel ih =>
    intro fuel2 bs h h2
    cases bs with
    | nil => rw [segmentF_nil, segmentF_nil]
    | cons b rest =>
      cases fuel2 with
      | zero => simp at h2
      | succ fuel2 =>
        show List.take (segNext (b :: rest)) (b :: rest) ::
            segmentF fuel (List.drop (segNext (b :: rest)) (b :: rest)) =
          List.take (segNext (b :: rest)) (b :: rest) ::
            segmentF fuel2 (List.drop (segNext (b :: rest)) (b :: rest))
        have hk := segNext_pos b rest
        have hdl : (List.drop (segNext (b :: rest)) (b :: rest)).length =
            (b :: rest).length - segNext (b :: rest) := List.length_drop _ _
        simp only [List.length_cons] at hdl
        congr 1
        apply ih
        · rw [hdl]
          simp only [List.length_cons] at h
          omega
        · rw [hdl]
          simp only [List.length_cons] at h2
          omega

theorem segment_cons (b : Nat) (rest : List Nat) :
    segment (b :: rest) =
      List.take (segNext (b :: rest)) (b :: rest) ::
        segment (List.drop (segNext (b :: rest)) (b :: rest)) := by
  show segmentF ((b :: rest).length) (b :: rest) = _
  have : (b :: rest).length = rest.length + 1 := rfl
  rw [this]
  show List.take (segNext (b :: rest)) (b :: rest) ::
      segmentF rest.length (List.drop (segNext (b :: rest)) (b :: rest)) = _
  congr 1
  apply segmentF_fuel
  · have hk := segNext_pos b rest
    have hdl : (List.drop (segNext (b :: rest)) (b :: rest)).length =
        (b :: rest).length - segNext (b :: rest) := List.length_drop _ _
    simp only [List.length_cons] at hdl
    omega
  · exact Nat.le_refl _

theorem segment_ne_nil (b : Nat) (rest : List Nat) : segment (b :: rest) ≠ [] := by
  rw [segment_cons]
  simp

theorem segment_join : ∀ (bs : List Nat), catList (segment bs) = bs := by
  have aux : ∀ (n : Nat) (bs : List Nat), bs.length ≤ n →
      catList (segment bs) = bs := by
    intro n
    induction n with
    | zero =>
      intro bs h
      cases bs with
      | nil => rfl
      | cons b rest => simp at h
    | succ n ih =>
      intro bs h
      cases bs with
      | nil => rfl
      | cons b rest =>
        rw [segment_cons]
        show List.take (segNext (b :: rest)) (b :: rest) ++
            catList (segment (List.drop (segNext (b :: rest)) (b :: rest))) = b :: rest
        rw [ih (List.drop (segNext (b :: rest)) (b :: rest))
          (by
            have hk := segNext_pos b rest
            have hdl := List.length_drop (segNext (b :: rest)) (b :: rest)
            simp only [List.length_cons] at hdl h ⊢
            omega)]
        exact List.take_append_drop _ _
  intro bs
  exact aux bs.length bs (Nat.le_refl _)

theorem seg_append : ∀ (C F : List Nat),
    segment (C ++ F) =
      (chunksSplit (segment C)).1 ++ segment ((chunksSplit (segment C)).2 ++ F) := by
  have aux : ∀ (n : Nat) (C F : List Nat), C.length ≤ n →
      segment (C ++ F) =
        (chunksSplit (segment C)).1 ++ segment ((chunksSplit (segment C)).2 ++ F) := by
    intro n
    induction n with
    | zero =>
      intro C F h
      cases C with
      | nil => simp [segment, segmentF, chunksSplit]
      | cons b rest => simp at h
    | succ n ih =>
      intro C F h
      cases C with
      | nil => simp [segment, segmentF, chunksSplit]
      | cons b rest =>
        by_cases hk : (b :: rest).length ≤ segNext (b :: rest)
        · have hdropnil : List.drop (segNext (b :: rest)) (b :: rest) = [] :=
            List.drop_eq_nil_of_le hk
          have htake : List.take (segNext (b :: rest)) (b :: rest) = b :: rest :=
            List.take_of_length_le hk
          rw [segment_cons, hdropnil, htake]
          show segment ((b :: rest) ++ F) =
            (chunksSplit [b :: rest]).1 ++ segment ((chunksSplit [b :: rest]).2 ++ F)
          simp [chunksSplit]
        · push_neg at hk
          have hstab := seg_stable b rest F hk
          have htake := take_append_le (segNext (b :: rest)) (b :: rest) F
            (Nat.le_of_lt hk)
          have hdrop := drop_append_le (segNext (b :: rest)) (b :: rest) F
            (Nat.le_of_lt hk)
          have hCFne : (b :: rest) ++ F = b :: (rest ++ F) := List.cons_append _ _ _
          have hsegCF : segment ((b :: rest) ++ F) =
              List.take (segNext (b :: rest)) (b :: rest) ::
                segment (List.drop (segNext (b :: rest)) (b :: rest) ++ F) := by
            rw [hCFne, segment_cons]
            rw [← hCFne, hstab, htake, hdrop]
          have hdne : List.drop (segNext (b :: rest)) (b :: rest) ≠ [] := by
            have hdl := List.length_drop (segNext (b :: rest)) (b :: rest)
            intro hx
            rw [hx] at hdl
            simp only [List.length_nil, List.length_cons] at hdl
            simp only [List.length_cons] at hk
            omega
          have hdlen : (List.drop (segNext (b :: rest)) (b :: rest)).length ≤ n := by
            have hdl := List.length_drop (segNext (b :: rest)) (b :: rest)
            have hkpos := segNext_pos b rest
            simp only [List.length_cons] at hdl h
            omega
          have hih := ih (List.drop (segNext (b :: rest)) (b :: rest)) F hdlen
          rw [hsegCF, hih, segment_cons]
          cases hseg : segment (List.drop (segNext (b :: rest)) (b :: rest)) with
          | nil =>
            cases hdx : List.drop (segNext (b :: rest)) (b :: rest) with
            | nil => exact absurd hdx hdne
            | cons d ds =>
              rw [hdx] at hseg
              exact absurd hseg (segment_ne_nil d ds)
          | cons c cs =>
            show List.take (segNext (b :: rest)) (b :: rest) ::
                ((chunksSplit (c :: cs)).1 ++ segment ((chunksSplit (c :: cs)).2 ++ F)) =
              (chunksSplit (List.take (segNext (b :: rest)) (b :: rest) :: c :: cs)).1 ++
                segment ((chunksSplit (List.take (segNext (b :: rest)) (b :: rest) :: c :: cs)).2 ++ F)
            rfl
  intro C F
  exact aux C.length C F (Nat.le_refl _)

theorem encodeChunks_append (v : Vocab) :
    ∀ (xs ys : List (List Nat)),
      encodeChunks v (xs ++ ys) =
        (match encodeChunks v xs, encodeChunks v ys with
         | some a, some b => some (a ++ b)
         | _, _ => none) := by
  intro xs
  induction xs with
  | nil =>
    intro ys
    cases h : encodeChunks v ys <;> simp [encodeChunks, h]
  | cons c cs ih =>
    intro ys
    show encodeChunks v (c :: (cs ++ ys)) = _
    simp only [encodeChunks]
    rw [ih ys]
    cases h1 : bpeEncode v c <;> cases h2 : encodeChunks v cs <;>
      cases h3 : encodeChunks v ys <;> simp [List.append_assoc]

theorem runFrom_ok (e : Encoding) :
    ∀ (cs : List (List Nat)) (p ts : List Nat),
      encode_plain e.vocab (p ++ catList cs) = some ts →
      runStreamFrom e (ParserState.mk p) cs = Except.ok ts := by
  intro cs
  induction cs with
  | nil =>
    intro p ts h
    simp only [catList, List.append_nil] at h
    show (match flush e (ParserState.mk p) with
          | (Except.ok ts2, _) => Except.ok ts2
          | (Except.error er, _) => Except.error er) = Except.ok ts
    simp only [flush, h]
  | cons c cs ih =>
    intro p ts h
    have hasc : p ++ catList (c :: cs) = (p ++ c) ++ catList cs := by
      show p ++ (c ++ catList cs) = (p ++ c) ++ catList cs
      rw [List.append_assoc]
    rw [hasc] at h
    unfold encode_plain at h
    rw [seg_append (p ++ c) (catList cs), encodeChunks_append] at h
    cases h1 : encodeChunks e.vocab (chunksSplit (segment (p ++ c))).1 with
    | none => rw [h1] at h; simp at h
    | some t1 =>
      rw [h1] at h
      cases h2 : encodeChunks e.vocab
          (segment ((chunksSplit (segment (p ++ c))).2 ++ catList cs)) with
      | none => rw [h2] at h; simp at h
      | some t2 =>
        rw [h2] at h
        simp only [Option.some.injEq] at h
        have hfeed : feed e (ParserState.mk p) c =
            (Except.ok t1, ParserState.mk (chunksSplit (segment (p ++ c))).2) := by
          simp only [feed]
          rw [h1]
        show (match feed e (ParserState.mk p) c with
              | (Except.ok ts1, st2) =>
                (match runStreamFrom e st2 cs with
                 | Except.ok ts2 => Except.ok (ts1 ++ ts2)
                 | Except.error er => Except.error er)
              | (Except.error er, _) => Except.error er) = Except.ok ts
        rw [hfeed]
        have hih := ih (chunksSplit (segment (p ++ c))).2 t2 h2
        show (match runStreamFrom e (ParserState.mk (chunksSplit (segment (p ++ c))).2) cs with
              | Except.ok ts2 => Except.ok (t1 ++ ts2)
              | Except.error er => Except.error er) = Except.ok ts
        rw [hih]
        show Except.ok (t1 ++ t2) = Except.ok ts
        rw [h]

theorem idxOfA_nth : ∀ (es : List (List Nat)) (bs : List Nat) (i : Nat),
    idxOfA es bs = some i → nth es i = some bs := by
  intro es
  induction es with
  | nil => intro bs i h; simp [idxOfA] at h
  | cons e es ih =>
    intro bs i h
    simp only [idxOfA] at h
    by_cases he : e = bs
    · rw [if_pos he] at h
      simp only [Option.some.injEq] at h
      rw [← h, he]
      rfl
    · rw [if_neg he] at h
      cases hx : idxOfA es bs with
      | none => rw [hx] at h; simp at h
      | some j =>
        rw [hx] at h
        simp only [Option.map_some', Option.some.injEq] at h
        rw [← h]
        show nth es j = some bs
        exact ih bs j hx

theorem idxOfA_lt : ∀ (es : List (List Nat)) (bs : List Nat) (i : Nat),
    idxOfA es bs = some i → i < es.length := by
  intro es
  induction es with
  | nil => intro bs i h; simp [idxOfA] at h
  | cons e es ih =>
    intro bs i h
    simp only [idxOfA] at h
    by_cases he : e = bs
    · rw [if_pos he] at h
      simp only [Option.some.injEq] at h
      rw [← h]
      simp
    · rw [if_neg he] at h
      cases hx : idxOfA es bs with
      | none => rw [hx] at h; simp at h
      | some j =>
        rw [hx] at h
        simp only [Option.map_some', Option.some.injEq] at h
        have := ih bs j hx
        simp only [List.length_cons]
        omega

theorem mergeLookup_mem : ∀ (ms : List ((Nat × Nat) × Nat)) (x y r m : Nat),
    mergeLookup ms x y = some (r, m) → ((x, y), m) ∈ ms := by
  intro ms
  induction ms with
  | nil => intro x y r m h; simp [mergeLookup] at h
  | cons mm ms ih =>
    intro x y r m h
    simp only [mergeLookup] at h
    by_cases hc : mm.1.1 = x ∧ mm.1.2 = y
    · rw [if_pos hc] at h
      simp only [Option.some.injEq, Prod.mk.injEq] at h
      have hmm : mm = ((x, y), m) := by
        obtain ⟨hc1, hc2⟩ := hc
        obtain ⟨hr, hm2⟩ := h
        cases mm with
        | mk mp mv =>
          cases mp with
          | mk ma mb =>
            simp only at hc1 hc2 hm2
            rw [hc1, hc2, hm2]
      rw [← hmm]
      exact List.mem_cons_self _ _
    · rw [if_neg hc] at h
      cases hx : mergeLookup ms x y with
      | none => rw [hx] at h; simp at h
      | some pr =>
        rw [hx] at h
        cases pr with
        | mk pr1 pr2 =>
          simp only [Option.map_some', Option.some.injEq, Prod.mk.injEq] at h
          obtain ⟨hr, hm2⟩ := h
          have : mergeLookup ms x y = some (pr1, m) := by rw [hx, hm2]
          exact List.mem_cons_of_mem _ (ih x y pr1 m this)

theorem mergedTok_mem (v : Vocab) (a b m : Nat) (h : mergedTok v a b = some m) :
    ((a, b), m) ∈ v.merges := by
  unfold mergedTok at h
  cases hx : mergeLookup v.merges a b with
  | none => rw [hx] at h; simp at h
  | some pr =>
    rw [hx] at h
    simp only [Option.map_some', Option.some.injEq] at h
    apply mergeLookup_mem v.merges a b pr.1 m
    rw [hx, ← h]

theorem fuse_decode (v : Vocab) (hm : MergeClosed v) :
    ∀ (i : Nat) (toks : List Nat),
      decodeToks v (fuseAt v i toks) = decodeToks v toks := by
  intro i
  induction i with
  | zero =>
    intro toks
    match toks with
    | [] => rfl
    | [a] => rfl
    | a :: b :: rest =>
      show decodeToks v
          (match mergedTok v a b with
           | some m => m :: rest
           | none => a :: b :: rest) = decodeToks v (a :: b :: rest)
      cases hmg : mergedTok v a b with
      | none => rfl
      | some m =>
        have hmem : ((a, b), m) ∈ v.merges := mergedTok_mem v a b m hmg
        have hcl := hm _ hmem
        simp only at hcl
        show decodeToks v (m :: rest) = decodeToks v (a :: b :: rest)
        simp only [decodeToks]
        rw [hcl]
        cases ha : lookup_bytes v a <;> cases hb : lookup_bytes v b <;>
          cases hr : decodeToks v rest <;> simp [List.append_assoc]
  | succ i ih =>
    intro toks
    cases toks with
    | nil => rfl
    | cons a rest =>
      show decodeToks v (a :: fuseAt v i rest) = decodeToks v (a :: rest)
      simp only [decodeToks]
      rw [ih rest]

theorem bpeStep_decode (v : Vocab) (hm : MergeClosed v) (toks toks2 : List Nat)
    (h : bpeStep v toks = some toks2) :
    decodeToks v toks2 = decodeToks v toks := by
  unfold bpeStep at h
  cases hb : bestAux 0 (pairRanks v toks) with
  | none => rw [hb] at h; simp at h
  | some pr =>
    rw [hb] at h
    simp only [Option.some.injEq] at h
    rw [← h]
    exact fuse_decode v hm pr.1 toks

theorem bpeRunFuel_decode (v : Vocab) (hm : MergeClosed v) :
    ∀ (fuel : Nat) (toks : List Nat),
      decodeToks v (bpeRunFuel v fuel toks) = decodeToks v toks := by
  intro fuel
  induction fuel with
  | zero => intro toks; rfl
  | succ fuel ih =>
    intro toks
    show decodeToks v
        (match bpeStep v toks with
         | some t2 => bpeRunFuel v fuel t2
         | none => toks) = decodeToks v toks
    cases hstep : bpeStep v toks with
    | none => rfl
    | some t2 => rw [ih t2, bpeStep_decode v hm toks t2 hstep]

theorem initToks_decode (v : Vocab) :
    ∀ (chunk ts : List Nat), initToks v chunk = some ts →
      decodeToks v ts = some chunk := by
  intro chunk
  induction chunk with
  | nil =>
    intro ts h
    simp only [initToks, Option.some.injEq] at h
    rw [← h]
    rfl
  | cons b rest ih =>
    intro ts h
    simp only [initToks] at h
    cases hl : lookup_id v [b] with
    | none => rw [hl] at h; simp at h
    | some t =>
      rw [hl] at h
      cases hr : initToks v rest with
      | none => rw [hr] at h; simp at h
      | some ts2 =>
        rw [hr] at h
        simp only [Option.some.injEq] at h
        rw [← h]
        show decodeToks v (t :: ts2) = some (b :: rest)
        simp only [decodeToks]
        have hbts : lookup_bytes v t = some [b] := by
          unfold lookup_bytes
          unfold lookup_id at hl
          exact idxOfA_nth v.entries [b] t hl
        rw [hbts, ih ts2 hr]
        rfl

theorem bpeEncode_decode (v : Vocab) (hm : MergeClosed v) (chunk ts : List Nat)
    (h : bpeEncode v chunk = some ts) : decodeToks v ts = some chunk := by
  unfold bpeEncode at h
  cases hi : initToks v chunk with
  | none => rw [hi] at h; simp at h
  | some ts0 =>
    rw [hi] at h
    simp only [Option.some.injEq] at h
    rw [← h]
    unfold bpeRun
    rw [bpeRunFuel_decode v hm]
    exact initToks_decode v chunk ts0 hi

theorem decodeToks_append (v : Vocab) :
    ∀ (xs ys : List Nat),
      decodeToks v (xs ++ ys) =
        (match decodeToks v xs, decodeToks v ys with
         | some a, some b => some (a ++ b)
         | _, _ => none) := by
  intro xs
  induction xs with
  | nil =>
    intro ys
    cases h : decodeToks v ys <;> simp [decodeToks, h]
  | cons t ts ih =>
    intro ys
    show decodeToks v (t :: (ts ++ ys)) = _
    simp only [decodeToks]
    rw [ih ys]
    cases h1 : lookup_bytes v t <;> cases h2 : decodeToks v ts <;>
      cases h3 : decodeToks v ys <;> simp [List.append_assoc]

theorem encodeChunks_decode (v : Vocab) (hm : MergeClosed v) :
    ∀ (chunks : List (List Nat)) (ts : List Nat),
      encodeChunks v chunks = some ts →
      decodeToks v ts = some (catList chunks) := by
  intro chunks
  induction chunks with
  | nil =>
    intro ts h
    simp only [encodeChunks, Option.some.injEq] at h
    rw [← h]
    rfl
  | cons c cs ih =>
    intro ts h
    simp only [encodeChunks] at h
    cases h1 : bpeEncode v c with
    | none => rw [h1] at h; simp at h
    | some t1 =>
      rw [h1] at h
      cases h2 : encodeChunks v cs with
      | none => rw [h2] at h; simp at h
      | some t2 =>
        rw [h2] at h
        simp only [Option.some.injEq] at h
        rw [← h, decodeToks_append, bpeEncode_decode v hm c t1 h1, ih t2 h2]
        rfl

theorem harmonyDecode_of_decodeToks (e : Encoding) :
    ∀ (ts bs : List Nat), decodeToks e.vocab ts = some bs →
      harmonyDecode e ts = bs := by
  intro ts
  induction ts with
  | nil =>
    intro bs h
    simp only [decodeToks, Option.some.injEq] at h
    rw [← h]
    rfl
  | cons t rest ih =>
    intro bs h
    simp only [decodeToks] at h
    cases hl : lookup_bytes e.vocab t with
    | none => rw [hl] at h; simp at h
    | some b1 =>
      rw [hl] at h
      cases hr : decodeToks e.vocab rest with
      | none => rw [hr] at h; simp at h
      | some rest2 =>
        rw [hr] at h
        simp only [Option.some.injEq] at h
        have htb : tokenBytes e t = some b1 := by
          simp [tokenBytes, hl]
        simp only [harmonyDecode, htb]
        rw [ih rest2 hr]
        exact h

theorem initToks_lt (v : Vocab) :
    ∀ (chunk ts : List Nat), initToks v chunk = some ts →
      ∀ t ∈ ts, t < v.entries.length := by
  intro chunk
  induction chunk with
  | nil =>
    intro ts h
    simp only [initToks, Option.some.injEq] at h
    rw [← h]
    intro t ht
    simp at ht
  | cons b rest ih =>
    intro ts h
    simp only [initToks] at h
    cases hl : lookup_id v [b] with
    | none => rw [hl] at h; simp at h
    | some t0 =>
      rw [hl] at h
      cases hr : initToks v rest with
      | none => rw [hr] at h; simp at h
      | some ts2 =>
        rw [hr] at h
        simp only [Option.some.injEq] at h
        rw [← h]
        intro t ht
        rcases List.mem_cons.mp ht with hteq | htmem
        · rw [hteq]
          exact idxOfA_lt v.entries [b] t0 hl
        · exact ih ts2 hr t htmem

theorem fuse_lt (v : Vocab) (hb : MergesBounded v) :
    ∀ (i : Nat) (toks : List Nat),
      (∀ t ∈ toks, t < v.entries.length) →
      ∀ t ∈ fuseAt v i toks, t < v.entries.length := by
  intro i
  induction i with
  | zero =>
    intro toks hall
    match toks with
    | [] => exact hall
    | [a] => exact hall
    | a :: b :: rest =>
      show ∀ t ∈ (match mergedTok v a b with
                  | some m => m :: rest
                  | none => a :: b :: rest), t < v.entries.length
      cases hmg : mergedTok v a b with
      | none => exact hall
      | some m =>
        intro t ht
        rcases List.mem_cons.mp ht with hteq | htmem
        · rw [hteq]
          exact hb _ (mergedTok_mem v a b m hmg)
        · exact hall t (by simp [htmem])
  | succ i ih =>
    intro toks hall
    cases toks with
    | nil => exact hall
    | cons a rest =>
      show ∀ t ∈ a :: fuseAt v i rest, t < v.entries.length
      intro t ht
      rcases List.mem_cons.mp ht with hteq | htmem
      · exact hall t (by simp [hteq])
      · exact ih rest (fun x hx => hall x (by simp [hx])) t htmem

theorem bpeStep_lt (v : Vocab) (hb : MergesBounded v) (toks toks2 : List Nat)
    (h : bpeStep v toks = some toks2)
    (hall : ∀ t ∈ toks, t < v.entries.length) :
    ∀ t ∈ toks2, t < v.entries.length := by
  unfold bpeStep at h
  cases hx : bestAux 0 (pairRanks v toks) with
  | none => rw [hx] at h; simp at h
  | some pr =>
    rw [hx] at h
    simp only [Option.some.injEq] at h
    rw [← h]
    exact fuse_lt v hb pr.1 toks hall

theorem bpeRunFuel_lt (v : Vocab) (hb : MergesBounded v) :
    ∀ (fuel : Nat) (toks : List Nat),
      (∀ t ∈ toks, t < v.entries.length) →
      ∀ t ∈ bpeRunFuel v fuel toks, t < v.entries.length := by
  intro fuel
  induction fuel with
  | zero => intro toks hall; exact hall
  | succ fuel ih =>
    intro toks hall
    show ∀ t ∈ (match bpeStep v toks with
                | some t2 => bpeRunFuel v fuel t2
                | none => toks), t < v.entries.length
    cases hstep : bpeStep v toks with
    | none => exact hall
    | some t2 => exact ih t2 (bpeStep_lt v hb toks t2 hstep hall)

theorem bpeEncode_lt (v : Vocab) (hb : MergesBounded v) (chunk ts : List Nat)
    (h : bpeEncode v chunk = some ts) : ∀ t ∈ ts, t < v.entries.length := by
  unfold bpeEncode at h
  cases hi : initToks v chunk with
  | none => rw [hi] at h; simp at h
  | some ts0 =>
    rw [hi] at h
    simp only [Option.some.injEq] at h
    rw [← h]
    exact bpeRunFuel_lt v hb ts0.length ts0 (initToks_lt v chunk ts0 hi)

theorem encodeChunks_lt (v : Vocab) (hb : MergesBounded v) :
    ∀ (chunks : List (List Nat)) (ts : List Nat),
      encodeChunks v chunks = some ts → ∀ t ∈ ts, t < v.entries.length := by
  intro chunks
  induction chunks with
  | nil =>
    intro ts h
    simp only [encodeChunks, Option.some.injEq] at h
    rw [← h]
    intro t ht
    simp at ht
  | cons c cs ih =>
    intro ts h
    simp only [encodeChunks] at h
    cases h1 : bpeEncode v c with
    | none => rw [h1] at h; simp at h
    | some t1 =>
      rw [h1] at h
      cases h2 : encodeChunks v cs with
      | none => rw [h2] at h; simp at h
      | some t2 =>
        rw [h2] at h
        simp only [Option.some.injEq] at h
        rw [← h]
        intro t ht
        rcases List.mem_append.mp ht with hmem | hmem
        · exact bpeEncode_lt v hb c t1 h1 t hmem
        · exact ih t2 h2 t hmem

theorem round_trip_core (e : Encoding) (T ts : List Nat) (hm : MergeClosed e.vocab)
    (henc : encode_plain e.vocab T = some ts) : harmonyDecode e ts = T := by
  apply harmonyDecode_of_decodeToks
  unfold encode_plain at henc
  have hdec := encodeChunks_decode e.vocab hm (segment T) ts henc
  rw [segment_join] at hdec
  exact hdec

theorem strict_eq_harmony (e : Encoding) :
    ∀ (toks : List Nat), (∀ t ∈ toks, (tokenBytes e t).isSome = true) →
      strictDecode e toks = Except.ok (harmonyDecode e toks) := by
  intro toks
  induction toks with
  | nil => intro _; rfl
  | cons t rest ih =>
    intro hall
    have ht := hall t (by simp)
    cases htb : tokenBytes e t with
    | none => rw [htb] at ht; simp at ht
    | some bs =>
      have hrest := ih (fun x hx => hall x (by simp [hx]))
      simp only [strictDecode, harmonyDecode, htb, hrest]

theorem cstring_ne (T : List Nat) (h0 : (0 : Nat) ∈ T) : cstringBytes T ≠ T := by
  induction T with
  | nil => simp at h0
  | cons b rest ih =>
    by_cases hb : b = 0
    · rw [hb]
      unfold cstringBytes
      rw [tw_cons_neg (by decide)]
      simp
    · unfold cstringBytes at ih ⊢
      rw [tw_cons_pos (by simp [hb])]
      have h0r : (0 : Nat) ∈ rest := by
        rcases List.mem_cons.mp h0 with h | h
        · exact absurd h.symm hb
        · exact h
      intro hx
      simp only [List.cons.injEq] at hx
      exact ih h0r hx.2

/-- C1 (streaming/non-streaming equivalence): for every byte sequence B and
every partition of B into chunks fed in order to a freshly constructed
StreamableParser, followed by a flush, the concatenation of all returned
token sequences equals encode_plain applied to B as a single unit. -/
theorem c1_streaming_equivalence (e : Encoding) (chunks : List (List Nat))
    (B ts : List Nat) (hB : catList chunks = B)
    (henc : encode_plain e.vocab B = some ts) :
    runStream e chunks = Except.ok ts := by
  unfold runStream initState
  apply runFrom_ok
  rw [List.nil_append, hB]
  exact henc

/-- Witness for C1: feeding "hello" as the chunks "he", "l", "lo" and
flushing yields exactly the single-unit encoding [10, 11, 3]. -/
theorem c1_streaming_equivalence_witness :
    catList [[104, 101], [108], [108, 111]] = [104, 101, 108, 108, 111] ∧
    encode_plain toyEncoding.vocab [104, 101, 108, 108, 111] = some [10, 11, 3] ∧
    runStream toyEncoding [[104, 101], [108], [108, 111]] = Except.ok [10, 11, 3] :=
  ⟨by decide, by decide,
    c1_streaming_equivalence toyEncoding [[104, 101], [108], [108, 111]]
      [104, 101, 108, 108, 111] [10, 11, 3] (by decide) (by decide)⟩

/-- C2 (round-trip): for every text T over a merge-closed vocabulary,
decoding the token sequence produced by encode_plain on T returns exactly T. -/
theorem c2_round_trip (e : Encoding) (T ts : List Nat)
    (hm : MergeClosed e.vocab) (henc : encode_plain e.vocab T = some ts) :
    harmonyDecode e ts = T :=
  round_trip_core e T ts hm henc

/-- Witness for C2: decode (encode_plain "hello") = "hello" over the toy
vocabulary. -/
theorem c2_round_trip_witness :
    MergeClosed toyEncoding.vocab ∧
    harmonyDecode toyEncoding [10, 11, 3] = [104, 101, 108, 108, 111] :=
  ⟨by decide,
    c2_round_trip toyEncoding [104, 101, 108, 108, 111] [10, 11, 3]
      (by decide) (by decide)⟩

/-- C3 (merge determinism): under the toy vocabulary of spec section 8,
encoding the byte sequence h,e,l,l,o first fuses the rank-0 pair (h,e) into
10, then the rank-1 pair (l,l) into 11 in preference to the rank-2 pair
(10,l), and stops when no adjacent pair has a defined rank, producing
exactly [10, 11, 3]. -/
theorem c3_merge_determinism :
    initToks toyVocab [104, 101, 108, 108, 111] = some [0, 1, 2, 2, 3] ∧
    rank toyVocab 0 1 = some 0 ∧
    rank toyVocab 2 2 = some 1 ∧
    rank toyVocab 10 2 = some 2 ∧
    bpeStep toyVocab [0, 1, 2, 2, 3] = some [10, 2, 2, 3] ∧
    bpeStep toyVocab [10, 2, 2, 3] = some [10, 11, 3] ∧
    bpeStep toyVocab [10, 11, 3] = none ∧
    bpeEncode toyVocab [104, 101, 108, 108, 111] = some [10, 11, 3] := by
  decide

/-- C4 (decode totality): on every structurally valid token sequence
(each id ordinary or a registered special), the total decode agrees with
the strict decode succeeding, so decode never fails there; and on an
invalid id the total decode substitutes the replacement marker instead of
failing. -/
theorem c4_decode_total (e : Encoding) (toks : List Nat) :
    ((∀ t ∈ toks, (tokenBytes e t).isSome = true) →
      strictDecode e toks = Except.ok (harmonyDecode e toks)) ∧
    (∀ (t : Nat) (rest : List Nat), (tokenBytes e t).isSome = false →
      harmonyDecode e (t :: rest) = replacementBytes ++ harmonyDecode e rest) := by
  constructor
  · exact strict_eq_harmony e toks
  · intro t rest hf
    cases htb : tokenBytes e t with
    | some bs => rw [htb] at hf; simp at hf
    | none => simp only [harmonyDecode, htb]

/-- Witness for C4: a token sequence mixing ordinary ids and a registered
special id decodes totally, agreeing with the strict decode. -/
theorem c4_decode_total_witness :
    strictDecode toyEncoding [10, 3, 103] =
      Except.ok (harmonyDecode toyEncoding [10, 3, 103]) :=
  (c4_decode_total toyEncoding [10, 3, 103]).1 (by decide)

/-- C5 (UnknownToken on invalid ids): every token sequence containing at
least one id with no vocabulary entry and no registered special id fails
strict decode with the UnknownToken error. -/
theorem c5_unknown_token (e : Encoding) (toks : List Nat)
    (h : ∃ t ∈ toks, tokenBytes e t = none) :
    strictDecode e toks = Except.error Err.unknownToken := by
  induction toks with
  | nil =>
    obtain ⟨t, ht, _⟩ := h
    simp at ht
  | cons t0 rest ih =>
    obtain ⟨t, ht, htb⟩ := h
    rcases List.mem_cons.mp ht with hteq | hmem
    · rw [hteq] at htb
      simp only [strictDecode, htb]
    · cases htb0 : tokenBytes e t0 with
      | none => simp only [strictDecode, htb0]
      | some bs =>
        have hrest := ih ⟨t, hmem, htb⟩
        simp only [strictDecode, htb0, hrest]

/-- Witness for C5: token id 99 has no vocabulary entry and is not special,
so decoding [10, 99] fails with UnknownToken. -/
theorem c5_unknown_token_witness :
    strictDecode toyEncoding [10, 99] = Except.error Err.unknownToken :=
  c5_unknown_token toyEncoding [10, 99] ⟨99, by decide, by decide⟩

/-- C6 (feed atomicity on failure): whenever feed fails, the parser's state
after the failed call equals its state before the call. -/
theorem c6_feed_atomic (e : Encoding) (st : ParserState) (chunk : List Nat)
    (er : Err) (h : (feed e st chunk).1 = Except.error er) :
    (feed e st chunk).2 = st := by
  unfold feed at h ⊢
  cases hx : encodeChunks e.vocab (chunksSplit (segment (st.pending ++ chunk))).1 with
  | some ts => rw [hx] at h; simp at h
  | none => rfl

/-- Witness for C6: feeding a chunk that commits the unencodable pending
byte 122 fails with InvalidInput and leaves the state unchanged. -/
theorem c6_feed_atomic_witness :
    (feed toyEncoding (ParserState.mk [122]) [32, 97]).1 =
      Except.error Err.invalidInput ∧
    (feed toyEncoding (ParserState.mk [122]) [32, 97]).2 = ParserState.mk [122] :=
  ⟨rfl, c6_feed_atomic toyEncoding (ParserState.mk [122]) [32, 97]
    Err.invalidInput rfl⟩

/-- C7 (render_prompt structure): the rendered prompt is, in fixed order, a
role-delimiter token, the encoding of the system segment, a role-delimiter,
the encoding of the user segment, a role-delimiter, and the encoding of the
assistant segment with no trailing delimiter; empty segments contribute
just their delimiters. -/
theorem c7_render_prompt_structure (e : Encoding) (S U A es eu ea : List Nat)
    (hs : encode_plain e.vocab S = some es)
    (hu : encode_plain e.vocab U = some eu)
    (ha : encode_plain e.vocab A = some ea) :
    render_prompt e S U A =
      some ([e.sysDelim] ++ es ++ [e.userDelim] ++ eu ++ [e.asstDelim] ++ ea) ∧
    render_prompt e [] [] [] = some [e.sysDelim, e.userDelim, e.asstDelim] := by
  constructor
  · unfold render_prompt
    rw [hs, hu, ha]
  · rfl

/-- Witness for C7: rendering system "he", empty user, assistant "lo" over
the toy handle. -/
theorem c7_render_prompt_structure_witness :
    render_prompt toyEncoding [104, 101] [] [108, 111] =
      some ([100] ++ [10] ++ [101] ++ [] ++ [102] ++ [2, 3]) :=
  (c7_render_prompt_structure toyEncoding [104, 101] [] [108, 111]
    [10] [] [2, 3] (by decide) (by decide) (by decide)).1

/-- C8 (idempotent reset): after any state, reset leaves has_pending false,
and any subsequent feed/flush sequence behaves exactly as on a newly
constructed parser. -/
theorem c8_reset_restores_initial (e : Encoding) (st : ParserState)
    (chunks : List (List Nat)) :
    hasPending (reset st) = false ∧
    runStreamFrom e (reset st) chunks = runStreamFrom e initState chunks :=
  ⟨rfl, rfl⟩

/-- C9 (stop-token containment): every id returned by stop_tokens is a
registered stop-tagged special token, and no token produced by encode_plain
ever equals a stop-token id, since ordinary ids stay below the vocabulary
size while reserved special ids lie at or above it. -/
theorem c9_stop_containment (e : Encoding) (T ts : List Nat)
    (hb : MergesBounded e.vocab) (hd : SpecialsDisjoint e)
    (henc : encode_plain e.vocab T = some ts) :
    (∀ s ∈ stop_tokens e, ∃ sp ∈ e.specials, sp.id = s ∧ isStopTok sp = true) ∧
    (∀ t ∈ ts, ∀ s ∈ stop_tokens e, t ≠ s) := by
  have hreg : ∀ s ∈ stop_tokens e,
      ∃ sp ∈ e.specials, sp.id = s ∧ isStopTok sp = true := by
    intro s hs
    unfold stop_tokens at hs
    obtain ⟨sp, hspf, hspid⟩ := List.mem_map.mp hs
    obtain ⟨hspmem, hspstop⟩ := List.mem_filter.mp hspf
    exact ⟨sp, hspmem, hspid, hspstop⟩
  refine ⟨hreg, ?_⟩
  intro t ht s hs
  have htlt : t < e.vocab.entries.length := by
    unfold encode_plain at henc
    exact encodeChunks_lt e.vocab hb (segment T) ts henc t ht
  obtain ⟨sp, hspmem, hspid, _⟩ := hreg s hs
  have hge : e.vocab.entries.length ≤ sp.id := hd sp hspmem
  rw [← hspid]
  omega

/-- Witness for C9: over the toy handle, the encoding of "hello" shares no
id with the stop-token set (in particular token 10 differs from stop id
103). -/
theorem c9_stop_containment_witness :
    MergesBounded toyEncoding.vocab ∧ SpecialsDisjoint toyEncoding ∧
    (10 : Nat) ≠ 103 :=
  ⟨by decide, by decide,
    (c9_stop_containment toyEncoding [104, 101, 108, 108, 111] [10, 11, 3]
      (by decide) (by decide) (by decide)).2 10 (by decide) 103 (by decide)⟩

/-- C10 (NUL truncation at the C boundary): encode_plain receives its input
as a NUL-terminated string, so for any text containing an embedded NUL the
boundary-level encoding captures only the prefix before the first NUL;
decoding it returns that prefix, never the full text, so the round trip can
hold only for NUL-free text. -/
theorem c10_nul_truncation (e : Encoding) (T ts : List Nat)
    (hm : MergeClosed e.vocab) (h0 : (0 : Nat) ∈ T)
    (henc : encode_plain_c e T = some ts) :
    harmonyDecode e ts = cstringBytes T ∧ harmonyDecode e ts ≠ T := by
  have hrt : harmonyDecode e ts = cstringBytes T := by
    unfold encode_plain_c at henc
    exact round_trip_core e (cstringBytes T) ts hm henc
  refine ⟨hrt, ?_⟩
  rw [hrt]
  exact cstring_ne T h0

/-- Witness for C10: the text "he\x00l" round-trips to "he", not to
itself. -/
theorem c10_nul_truncation_witness :
    harmonyDecode toyEncoding [10] = cstringBytes [104, 101, 0, 108] ∧
    harmonyDecode toyEncoding [10] ≠ [104, 101, 0, 108] :=
  c10_nul_truncation toyEncoding [104, 101, 0, 108] [10]
    (by decide) (by decide) (by decide)

end Noesis
